import Mathlib

/-!
# Verification of the zlib.wasm SIMD core against its specification

Shallow embedding of the SIMD-accelerated zlib routines from
`src/zlib_simd_optimized.c`, `src/zlib_simd_compression.c`,
`src/wasm_module.c` and `src/wasm_module_side.c`.

Modelling conventions:
* Byte memory is a total function `Mem := ℤ → ℕ`; a load of a byte is
  `byteAt m a = m a % 256` (pointer arithmetic may step below a buffer
  base, hence `ℤ` addresses).
* 128-bit SIMD values are modelled lane-wise, which is the documented
  semantics of the wasm_simd128 intrinsics (`wasm_i8x16_eq` +
  `wasm_i8x16_bitmask` find the first mismatching lane,
  `wasm_u16x8_sub_sat` is per-lane saturating subtraction, splats
  replicate a lane pattern, etc.).
* Machine integers are `ℕ` with explicit `% 2^w` where C/wasm overflow
  or truncation matters; u16 table loads are modelled as `% 65536`.
* `while` loops are embedded as structural recursion on an explicit
  fuel argument that is provably an upper bound on the iteration count
  of the source loop, so that all definitions reduce by `decide`/`rfl`.
-/

/-- Byte-addressed memory: a total function from addresses to cell
contents.  Loads mask to a byte. -/
def Mem : Type := ℤ → ℕ

/-- Load one byte (`uint8_t` read). -/
def byteAt (m : Mem) (a : ℤ) : ℕ := m a % 256

/-- Store one byte-sized value at an address. -/
def wr (m : Mem) (a : ℤ) (v : ℕ) : Mem := fun x => if x = a then v else m x

/-- Little-endian 64-bit load `*(uint64_t*)p`, as used for the quick
prefix/suffix screening in `zlib_longest_match_simd`. -/
def read64 (m : Mem) (a : ℤ) : ℕ :=
  byteAt m a + 256 * byteAt m (a + 1) + 65536 * byteAt m (a + 2) +
    16777216 * byteAt m (a + 3) + 4294967296 * byteAt m (a + 4) +
    1099511627776 * byteAt m (a + 5) + 281474976710656 * byteAt m (a + 6) +
    72057594037927936 * byteAt m (a + 7)

/-! ## `zlib_slide_hash_simd` (src/zlib_simd_optimized.c, lines 26-70)

The hash table and the prev (chain) table are `uint16_t` arrays, modelled
as index-functions `ℕ → ℕ` whose loads mask to `% 65536`.  The source
walks each table backwards in 16-entry chunks and applies
`wasm_u16x8_sub_sat(values, wsize_vec)` to every lane. -/

/-- One lane of `wasm_u16x8_sub_sat`: saturating `u16` subtraction.
`Nat` subtraction is already truncated at zero. -/
def satSub16 (a b : ℕ) : ℕ := a % 65536 - b % 65536

/-- Effect of storing the two saturating-subtracted vectors back over
the 16 entries `[base, base+16)` of a table. -/
def slideChunk (tab : ℕ → ℕ) (base wsize : ℕ) : ℕ → ℕ :=
  fun i => if base ≤ i ∧ i < base + 16 then satSub16 (tab i) wsize else tab i

/-- The `while (entries >= 16)` loop of `zlib_slide_hash_simd`,
processing the chunk `[entries-16, entries)` and stepping down.  `fuel`
is an upper bound on the iteration count (the source loop strictly
decreases `entries` by 16 each pass, so `fuel = entries` suffices). -/
def slideLoop (wsize : ℕ) : ℕ → (ℕ → ℕ) → ℕ → (ℕ → ℕ)
  | 0, tab, _ => tab
  | fuel + 1, tab, entries =>
    if 16 ≤ entries then
      slideLoop wsize fuel (slideChunk tab (entries - 16) wsize) (entries - 16)
    else tab

/-- `zlib_slide_hash_simd(hash_table, prev_table, hash_size, window_size,
wsize)`: both tables are slid by `wsize` with u16 saturating
subtraction. -/
def zlib_slide_hash_simd (hash_table prev_table : ℕ → ℕ)
    (hash_size window_size wsize : ℕ) : (ℕ → ℕ) × (ℕ → ℕ) :=
  (slideLoop wsize hash_size hash_table hash_size,
   slideLoop wsize window_size prev_table window_size)

/-- The scalar one-entry-at-a-time reference for `slide`: every stored
position value inside the table is decreased by `wsize`, saturating at
0; entries outside the table are untouched. -/
def slideScalar (tab : ℕ → ℕ) (size wsize : ℕ) : ℕ → ℕ :=
  fun i => if i < size then satSub16 (tab i) wsize else tab i

theorem slideChunk_outside (tab : ℕ → ℕ) (base wsize i : ℕ)
    (h : ¬ (base ≤ i ∧ i < base + 16)) :
    slideChunk tab base wsize i = tab i := by
  simp [slideChunk, h]

theorem slideLoop_untouched_above (wsize : ℕ) :
    ∀ (fuel : ℕ) (tab : ℕ → ℕ) (entries i : ℕ), entries ≤ i →
      slideLoop wsize fuel tab entries i = tab i := by
  intro fuel
  induction fuel with
  | zero => intro tab entries i _; rfl
  | succ f ih =>
    intro tab entries i hi
    by_cases h16 : 16 ≤ entries
    · have h1 : slideLoop wsize (f + 1) tab entries i =
        slideLoop wsize f (slideChunk tab (entries - 16) wsize) (entries - 16) i := by
        simp [slideLoop, h16]
      rw [h1, ih _ _ _ (by omega)]
      exact slideChunk_outside _ _ _ _ (by omega)
    · simp [slideLoop, h16]

theorem slideLoop_spec (wsize : ℕ) :
    ∀ (fuel : ℕ) (tab : ℕ → ℕ) (entries : ℕ), 16 ∣ entries → entries ≤ fuel →
      ∀ i, slideLoop wsize fuel tab entries i =
        if i < entries then satSub16 (tab i) wsize else tab i := by
  intro fuel
  induction fuel with
  | zero =>
    intro tab entries _ hle i
    interval_cases entries
    simp [slideLoop]
  | succ f ih =>
    intro tab entries hdvd hle i
    by_cases h16 : 16 ≤ entries
    · have h1 : slideLoop wsize (f + 1) tab entries i =
        slideLoop wsize f (slideChunk tab (entries - 16) wsize) (entries - 16) i := by
        simp [slideLoop, h16]
      have hdvd' : 16 ∣ (entries - 16) := (Nat.dvd_sub' hdvd (dvd_refl 16))
      rw [h1, ih _ _ hdvd' (by omega) i]
      by_cases hlt : i < entries - 16
      · simp only [if_pos hlt, if_pos (by omega : i < entries)]
        rw [slideChunk_outside _ _ _ _ (by omega)]
      · by_cases hmid : i < entries
        · simp only [if_neg hlt, if_pos hmid]
          simp [slideChunk, (by omega : entries - 16 ≤ i ∧ i < entries - 16 + 16)]
        · simp only [if_neg hlt, if_neg hmid]
          exact slideChunk_outside _ _ _ _ (by omega)
    · have h0 : entries = 0 := by
        rcases hdvd with ⟨k, hk⟩
        omega
      subst h0
      simp [slideLoop]

/-- **C5.** After `zlib_slide_hash_simd`, every entry of the hash table
and of the prev (chain) table equals its old u16 value decreased by
`wsize` with saturation at 0 (`Nat` truncated subtraction, so no entry
wraps to a large positive value, and the result never exceeds the old
value), and the vectorized batch form agrees pointwise with the scalar
one-entry-at-a-time reference `slideScalar`.  The table sizes in this
program (`SIMD_HASH_SIZE = SIMD_WINDOW_SIZE = 32768`) satisfy the
16-divisibility required by the 16-entry batching. -/
theorem claimC5_slide_hash (hash_table prev_table : ℕ → ℕ)
    (hash_size window_size wsize : ℕ)
    (h1 : 16 ∣ hash_size) (h2 : 16 ∣ window_size) :
    ∀ i,
      ((zlib_slide_hash_simd hash_table prev_table hash_size window_size wsize).1 i =
          slideScalar hash_table hash_size wsize i ∧
        (zlib_slide_hash_simd hash_table prev_table hash_size window_size wsize).2 i =
          slideScalar prev_table window_size wsize i) ∧
      (i < hash_size →
        (zlib_slide_hash_simd hash_table prev_table hash_size window_size wsize).1 i =
            hash_table i % 65536 - wsize % 65536 ∧
          (zlib_slide_hash_simd hash_table prev_table hash_size window_size wsize).1 i ≤
            hash_table i % 65536) := by
  intro i
  have hh := slideLoop_spec wsize hash_size hash_table hash_size h1 (le_refl _) i
  have hp := slideLoop_spec wsize window_size prev_table window_size h2 (le_refl _) i
  constructor
  · constructor
    · rw [show (zlib_slide_hash_simd hash_table prev_table hash_size window_size wsize).1 =
        slideLoop wsize hash_size hash_table hash_size from rfl, hh]
      simp [slideScalar]
    · rw [show (zlib_slide_hash_simd hash_table prev_table hash_size window_size wsize).2 =
        slideLoop wsize window_size prev_table window_size from rfl, hp]
      simp [slideScalar]
  · intro hi
    rw [show (zlib_slide_hash_simd hash_table prev_table hash_size window_size wsize).1 =
      slideLoop wsize hash_size hash_table hash_size from rfl, hh]
    simp only [if_pos hi]
    exact ⟨rfl, Nat.sub_le _ _⟩

/-- Witness for C5 at a concrete instance: tables of size 32 (a multiple
of 16), `wsize = 5`; entry 3 holding 3000 slides to 2995. -/
theorem claimC5_slide_hash_witness :
    (16 ∣ 32) ∧
      (zlib_slide_hash_simd (fun i => i * 1000) (fun _ => 2) 32 32 5).1 3 =
        (fun i => i * 1000) 3 % 65536 - 5 % 65536 :=
  ⟨by decide, ((claimC5_slide_hash (fun i => i * 1000) (fun _ => 2) 32 32 5
      (by decide) (by decide) 3).2 (by decide)).1⟩

/-! ## `zlib_compare256_simd` (src/zlib_simd_optimized.c, lines 73-112)

The SIMD chunk loop loads 16 bytes from each source, compares them with
`wasm_i8x16_eq`, and extracts the equality mask with
`wasm_i8x16_bitmask`; `mask != 0xFFFF` holds exactly when some lane
mismatches, and the bit scan `for i: if ((mask & (1 << i)) == 0)`
returns the index of the first mismatching lane.  `firstDiff16` models
that mask-and-scan: it returns the first mismatching lane index of the
16 lanes at offset `len`, or 16 when the full mask `0xFFFF` is seen. -/

/-- Scan lanes `j, j+1, ...` (with `fuel` lanes remaining) for the
first byte mismatch between `s0+len+·` and `s1+len+·`. -/
def firstDiffAux (m : Mem) (s0 s1 : ℤ) (len : ℕ) : ℕ → ℕ → ℕ
  | 0, j => j
  | fuel + 1, j =>
    if byteAt m (s0 + (len : ℤ) + (j : ℤ)) = byteAt m (s1 + (len : ℤ) + (j : ℤ)) then
      firstDiffAux m s0 s1 len fuel (j + 1)
    else j

/-- Index of the first mismatching lane among the 16 byte lanes at
chunk offset `len` (16 when all lanes agree, i.e. the bitmask is
`0xFFFF`). -/
def firstDiff16 (m : Mem) (s0 s1 : ℤ) (len : ℕ) : ℕ :=
  firstDiffAux m s0 s1 len 16 0

/-- The trailing scalar loop `while (len < 256 && src0[len] == src1[len])
len++`.  `fuel = 256 - len` bounds the remaining iterations. -/
def cmp256Tail (m : Mem) (s0 s1 : ℤ) : ℕ → ℕ → ℕ
  | 0, len => len
  | fuel + 1, len =>
    if len < 256 ∧ byteAt m (s0 + (len : ℤ)) = byteAt m (s1 + (len : ℤ)) then
      cmp256Tail m s0 s1 fuel (len + 1)
    else len

/-- The SIMD chunk loop `while (len + 16 <= 256)`; at most 16
iterations. -/
def cmp256Go (m : Mem) (s0 s1 : ℤ) : ℕ → ℕ → ℕ
  | 0, len => cmp256Tail m s0 s1 (256 - len) len
  | fuel + 1, len =>
    if len + 16 ≤ 256 then
      let d := firstDiff16 m s0 s1 len
      if d = 16 then cmp256Go m s0 s1 fuel (len + 16) else len + d
    else cmp256Tail m s0 s1 (256 - len) len

/-- `zlib_compare256_simd(src0, src1)`. -/
def zlib_compare256_simd (m : Mem) (s0 s1 : ℤ) : ℕ :=
  cmp256Go m s0 s1 16 0

theorem firstDiffAux_spec (m : Mem) (s0 s1 : ℤ) (len : ℕ) :
    ∀ (fuel j : ℕ),
      (∀ k, j ≤ k → k < firstDiffAux m s0 s1 len fuel j →
        byteAt m (s0 + (len : ℤ) + (k : ℤ)) = byteAt m (s1 + (len : ℤ) + (k : ℤ))) ∧
      (firstDiffAux m s0 s1 len fuel j < j + fuel →
        byteAt m (s0 + (len : ℤ) + (firstDiffAux m s0 s1 len fuel j : ℤ)) ≠
          byteAt m (s1 + (len : ℤ) + (firstDiffAux m s0 s1 len fuel j : ℤ))) ∧
      j ≤ firstDiffAux m s0 s1 len fuel j ∧
      firstDiffAux m s0 s1 len fuel j ≤ j + fuel := by
  intro fuel
  induction fuel with
  | zero =>
    intro j
    have hrw : firstDiffAux m s0 s1 len 0 j = j := rfl
    rw [hrw]
    exact ⟨fun k hk1 hk2 => absurd (lt_of_le_of_lt hk1 hk2) (lt_irrefl _),
      fun h => absurd h (by omega), le_refl _, by omega⟩
  | succ f ih =>
    intro j
    by_cases heq : byteAt m (s0 + (len : ℤ) + (j : ℤ)) = byteAt m (s1 + (len : ℤ) + (j : ℤ))
    · have hrw : firstDiffAux m s0 s1 len (f + 1) j = firstDiffAux m s0 s1 len f (j + 1) := by
        simp [firstDiffAux, heq]
      obtain ⟨ih1, ih2, ih3, ih4⟩ := ih (j + 1)
      rw [hrw]
      refine ⟨?_, fun h => ih2 (by omega), by omega, by omega⟩
      intro k hk1 hk2
      rcases Nat.eq_or_lt_of_le hk1 with h | h
      · subst h; exact heq
      · exact ih1 k h hk2
    · have hrw : firstDiffAux m s0 s1 len (f + 1) j = j := by
        simp [firstDiffAux, heq]
      rw [hrw]
      exact ⟨fun k hk1 hk2 => absurd (lt_of_le_of_lt hk1 hk2) (lt_irrefl _),
        fun _ => heq, le_refl _, by omega⟩

theorem cmp256Tail_spec (m : Mem) (s0 s1 : ℤ) :
    ∀ (fuel len : ℕ), len + fuel = 256 →
      (∀ k, len ≤ k → k < cmp256Tail m s0 s1 fuel len →
        byteAt m (s0 + (k : ℤ)) = byteAt m (s1 + (k : ℤ))) ∧
      (cmp256Tail m s0 s1 fuel len < 256 →
        byteAt m (s0 + (cmp256Tail m s0 s1 fuel len : ℤ)) ≠
          byteAt m (s1 + (cmp256Tail m s0 s1 fuel len : ℤ))) ∧
      len ≤ cmp256Tail m s0 s1 fuel len ∧ cmp256Tail m s0 s1 fuel len ≤ 256 := by
  intro fuel
  induction fuel with
  | zero =>
    intro len hlen
    have hrw : cmp256Tail m s0 s1 0 len = len := rfl
    rw [hrw]
    exact ⟨fun k hk1 hk2 => absurd (lt_of_le_of_lt hk1 hk2) (lt_irrefl _),
      fun h => absurd h (by omega), le_refl _, by omega⟩
  | succ f ih =>
    intro len hlen
    by_cases hc : len < 256 ∧ byteAt m (s0 + (len : ℤ)) = byteAt m (s1 + (len : ℤ))
    · have hrw : cmp256Tail m s0 s1 (f + 1) len = cmp256Tail m s0 s1 f (len + 1) := by
        simp [cmp256Tail, hc]
      obtain ⟨ih1, ih2, ih3, ih4⟩ := ih (len + 1) (by omega)
      rw [hrw]
      refine ⟨?_, ih2, by omega, ih4⟩
      intro k hk1 hk2
      rcases Nat.eq_or_lt_of_le hk1 with h | h
      · subst h; exact hc.2
      · exact ih1 k h hk2
    · have hrw : cmp256Tail m s0 s1 (f + 1) len = len := by
        simp only [cmp256Tail, if_neg hc]
      rw [hrw]
      refine ⟨fun k hk1 hk2 => absurd (lt_of_le_of_lt hk1 hk2) (lt_irrefl _), ?_, le_refl _, by omega⟩
      intro hlt
      rcases Decidable.not_and_iff_or_not.mp hc with h | h
      · omega
      · exact h

theorem cmp256Go_spec (m : Mem) (s0 s1 : ℤ) :
    ∀ (fuel len : ℕ), len ≤ 256 →
      (∀ k, len ≤ k → k < cmp256Go m s0 s1 fuel len →
        byteAt m (s0 + (k : ℤ)) = byteAt m (s1 + (k : ℤ))) ∧
      (cmp256Go m s0 s1 fuel len < 256 →
        byteAt m (s0 + (cmp256Go m s0 s1 fuel len : ℤ)) ≠
          byteAt m (s1 + (cmp256Go m s0 s1 fuel len : ℤ))) ∧
      len ≤ cmp256Go m s0 s1 fuel len ∧ cmp256Go m s0 s1 fuel len ≤ 256 := by
  intro fuel
  induction fuel with
  | zero =>
    intro len hlen
    have h := cmp256Tail_spec m s0 s1 (256 - len) len (by omega)
    exact h
  | succ f ih =>
    intro len hlen
    by_cases h16 : len + 16 ≤ 256
    · by_cases hd : firstDiff16 m s0 s1 len = 16
      · have hrw : cmp256Go m s0 s1 (f + 1) len = cmp256Go m s0 s1 f (len + 16) := by
          simp [cmp256Go, h16, hd]
        obtain ⟨ih1, ih2, ih3, ih4⟩ := ih (len + 16) (by omega)
        obtain ⟨fd1, _, _, _⟩ := firstDiffAux_spec m s0 s1 len 16 0
        rw [hrw]
        refine ⟨?_, ih2, by omega, ih4⟩
        intro k hk1 hk2
        by_cases hk3 : k < len + 16
        · have := fd1 (k - len) (Nat.zero_le _)
            (by rw [show firstDiff16 m s0 s1 len = firstDiffAux m s0 s1 len 16 0 from rfl] at hd
                omega)
          have hcast : ((k - len : ℕ) : ℤ) = (k : ℤ) - (len : ℤ) := by omega
          rw [hcast] at this
          have h1 : s0 + (len : ℤ) + ((k : ℤ) - (len : ℤ)) = s0 + (k : ℤ) := by ring
          have h2 : s1 + (len : ℤ) + ((k : ℤ) - (len : ℤ)) = s1 + (k : ℤ) := by ring
          rwa [h1, h2] at this
        · exact ih1 k (by omega) hk2
      · have hrw : cmp256Go m s0 s1 (f + 1) len = len + firstDiff16 m s0 s1 len := by
          simp [cmp256Go, h16, hd]
        obtain ⟨fd1, fd2, fd3, fd4⟩ := firstDiffAux_spec m s0 s1 len 16 0
        have hF : firstDiff16 m s0 s1 len = firstDiffAux m s0 s1 len 16 0 := rfl
        have hdlt : firstDiff16 m s0 s1 len < 16 := by rw [hF]; rw [hF] at hd; omega
        rw [hrw]
        refine ⟨?_, ?_, by omega, by omega⟩
        · intro k hk1 hk2
          have := fd1 (k - len) (Nat.zero_le _) (by rw [hF] at hk2; omega)
          have hcast : ((k - len : ℕ) : ℤ) = (k : ℤ) - (len : ℤ) := by omega
          rw [hcast] at this
          have h1 : s0 + (len : ℤ) + ((k : ℤ) - (len : ℤ)) = s0 + (k : ℤ) := by ring
          have h2 : s1 + (len : ℤ) + ((k : ℤ) - (len : ℤ)) = s1 + (k : ℤ) := by ring
          rwa [h1, h2] at this
        · intro _
          have := fd2 (by omega)
          rw [← hF] at this
          have h1 : s0 + (len : ℤ) + (firstDiff16 m s0 s1 len : ℤ) =
              s0 + ((len + firstDiff16 m s0 s1 len : ℕ) : ℤ) := by push_cast; ring
          have h2 : s1 + (len : ℤ) + (firstDiff16 m s0 s1 len : ℤ) =
              s1 + ((len + firstDiff16 m s0 s1 len : ℕ) : ℤ) := by push_cast; ring
          rwa [h1, h2] at this
    · have hrw : cmp256Go m s0 s1 (f + 1) len = cmp256Tail m s0 s1 (256 - len) len := by
        simp [cmp256Go, h16]
      rw [hrw]
      exact cmp256Tail_spec m s0 s1 (256 - len) len (by omega)

/-- Helper shared by C4 and C10: `zlib_compare256_simd` never exceeds
256. -/
theorem zlib_compare256_simd_le (m : Mem) (s0 s1 : ℤ) :
    zlib_compare256_simd m s0 s1 ≤ 256 :=
  (cmp256Go_spec m s0 s1 16 0 (by omega)).2.2.2

/-- **C10.** `zlib_compare256_simd(src0, src1)` returns exactly the
length of the longest common byte run of the two buffers, capped at
256: the result `r` satisfies `r ≤ 256`, all byte pairs before `r`
agree, and when `r < 256` the byte pair at `r` disagrees.  Hence any
match length `min r lookahead` derived from it inside
`zlib_longest_match_simd` is below 257 (it can never reach 257 or
258). -/
theorem claimC10_compare256 (m : Mem) (s0 s1 : ℤ) :
    zlib_compare256_simd m s0 s1 ≤ 256 ∧
      (∀ k, k < zlib_compare256_simd m s0 s1 →
        byteAt m (s0 + (k : ℤ)) = byteAt m (s1 + (k : ℤ))) ∧
      (zlib_compare256_simd m s0 s1 < 256 →
        byteAt m (s0 + (zlib_compare256_simd m s0 s1 : ℤ)) ≠
          byteAt m (s1 + (zlib_compare256_simd m s0 s1 : ℤ))) ∧
      (∀ lookahead, min (zlib_compare256_simd m s0 s1) lookahead < 257) := by
  obtain ⟨h1, h2, _, h4⟩ := cmp256Go_spec m s0 s1 16 0 (by omega)
  exact ⟨h4, fun k hk => h1 k (Nat.zero_le _) hk, h2,
    fun lookahead => lt_of_le_of_lt (le_trans (Nat.min_le_left _ _) h4) (by omega)⟩

/-- Witness for C10: with a buffer whose byte 5 differs between the two
sources, `zlib_compare256_simd` returns 5; bytes before 5 agree and
byte 5 disagrees. -/
theorem claimC10_compare256_witness :
    byteAt (fun a => if a = 5 then 1 else 0) ((0 : ℤ) + (2 : ℕ)) =
        byteAt (fun a => if a = 5 then 1 else 0) ((1000 : ℤ) + (2 : ℕ)) ∧
      byteAt (fun a => if a = 5 then 1 else 0)
          ((0 : ℤ) + (zlib_compare256_simd (fun a => if a = 5 then 1 else 0) 0 1000 : ℕ)) ≠
        byteAt (fun a => if a = 5 then 1 else 0)
          ((1000 : ℤ) + (zlib_compare256_simd (fun a => if a = 5 then 1 else 0) 0 1000 : ℕ)) :=
  ⟨(claimC10_compare256 (fun a => if a = 5 then 1 else 0) 0 1000).2.1 2 (by decide),
   (claimC10_compare256 (fun a => if a = 5 then 1 else 0) 0 1000).2.2.1 (by decide)⟩

/-! ## `zlib_chunkmemset_simd` (src/zlib_simd_optimized.c, lines 295-350)

The pattern vector for `dist < 16` is built once, before any store
(`wasm_i8x16_splat` / `wasm_i16x8_splat` / `wasm_i32x4_splat` /
`wasm_i64x2_splat` of the first `dist` source bytes for
`dist ∈ {1,2,4,8}`, and the raw 16-byte load `wasm_v128_load(src)` in
the `default` case).  `dist ≥ 16` copies forward in 16-byte chunks,
each chunk fully loaded from current memory before being stored.
Remainders run byte-by-byte against current memory. -/

/-- The byte lanes of the pattern vector chosen by the `switch (dist)`
(little-endian lane order, lane `i < 16`). -/
def chunkPattern (m : Mem) (src : ℤ) (dist : ℕ) : ℕ → ℕ :=
  fun i =>
    if dist = 1 then byteAt m src
    else if dist = 2 then byteAt m (src + (i % 2 : ℕ))
    else if dist = 4 then byteAt m (src + (i % 4 : ℕ))
    else if dist = 8 then byteAt m (src + (i % 8 : ℕ))
    else byteAt m (src + (i : ℤ))

/-- Store the 16 byte lanes `pat 0 .. pat 15` at `d .. d+15`
(`wasm_v128_store`); `k` counts the lanes written so far. -/
def storeLanes (pat : ℕ → ℕ) : Mem → ℤ → ℕ → Mem
  | m, _, 0 => m
  | m, d, k + 1 => wr (storeLanes pat m d k) (d + (k : ℕ)) (pat k)

/-- The `for (i = 0; i < simd_len; i += 16) wasm_v128_store(dest + i,
pattern)` loop: `count = len / 16` stores of the fixed pattern. -/
def storePatternChunks (pat : ℕ → ℕ) : Mem → ℤ → ℕ → Mem
  | m, _, 0 => m
  | m, d, count + 1 => storePatternChunks pat (storeLanes pat m d 16) (d + 16) count

/-- The byte-remainder loop `for (i = simd_len; i < len; i++)
dest[i] = src[i % dist]`, reading current memory. -/
def tailModCopy (dest src : ℤ) (dist len : ℕ) : ℕ → Mem → ℕ → Mem
  | 0, m, _ => m
  | fuel + 1, m, i =>
    if i < len then
      tailModCopy dest src dist len fuel
        (wr m (dest + (i : ℕ)) (byteAt m (src + (i % dist : ℕ)))) (i + 1)
    else m

/-- The `dist >= 16` chunk loop: each iteration loads 16 bytes from
current memory at `src`, then stores them at `dest` (so an overlapping
forward copy sees earlier stores). -/
def copyChunks : Mem → ℤ → ℤ → ℕ → Mem
  | m, _, _, 0 => m
  | m, d, s, count + 1 =>
    copyChunks (storeLanes (fun i => byteAt m (s + (i : ℕ))) m d 16) (d + 16) (s + 16) count

/-- The byte-remainder loop `for (i = simd_len; i < len; i++)
dest[i] = src[i]`, reading current memory. -/
def tailCopy (dest src : ℤ) (len : ℕ) : ℕ → Mem → ℕ → Mem
  | 0, m, _ => m
  | fuel + 1, m, i =>
    if i < len then
      tailCopy dest src len fuel (wr m (dest + (i : ℕ)) (byteAt m (src + (i : ℕ)))) (i + 1)
    else m

/-- `zlib_chunkmemset_simd(dest, src, dist, len)` acting on memory. -/
def zlib_chunkmemset_simd (m : Mem) (dest src : ℤ) (dist len : ℕ) : Mem :=
  if dist < 16 then
    let pat := chunkPattern m src dist
    let m1 := storePatternChunks pat m dest (len / 16)
    tailModCopy dest src dist len (len - len / 16 * 16) m1 (len / 16 * 16)
  else
    let m1 := copyChunks m dest src (len / 16)
    tailCopy dest src len (len - len / 16 * 16) m1 (len / 16 * 16)

/-- The memory holding the three-byte back-reference pattern `1, 2, 3`
at addresses 0..2, zero elsewhere, used as the C1 failing input. -/
def memC1 : Mem := fun a => if a = 0 then 1 else if a = 1 then 2 else if a = 2 then 3 else 0

/-- **C1 (failing input).** The ChunkReplicator contract demands
`dest[i] = src_pattern[i mod distance]`.  Calling
`zlib_chunkmemset_simd` with the canonical overlapping back-reference
layout `dest = src + dist` (source pattern `1,2,3` at addresses 0..2,
`dest` at address 3), `distance = 3`, `length = 16` must therefore
write `dest[3] = pattern[3 mod 3] = pattern[0] = 1`.  Instead the
`default` branch of the `switch` loads 16 raw bytes from `src`
(including the 13 not-yet-written destination bytes) as the "pattern"
and stores them verbatim: the byte written at `dest[3]` (address 6) is
0, and replication fails. -/
theorem claimC1_chunkmemset_bug :
    zlib_chunkmemset_simd memC1 3 0 3 16 6 = 0 ∧ byteAt memC1 ((3 : ℤ) % (3 : ℕ)) = 1 ∧
      (0 : ℕ) ≠ 1 := by
  refine ⟨?_, by decide, by decide⟩
  decide

/-! ## `zlib_adler32_simd` (src/zlib_simd_optimized.c, lines 115-191)

The buffer is an index-function `ℕ → ℕ` (reads mask to a byte).  The
library routine `adler32` that the source calls for short buffers and
for the remainder is not part of src/; it is modelled from the spec
below.  The SIMD path is embedded lane-exactly, including the fact that
`wasm_i32x4_extend_low_i16x8 (wasm_i16x8_extend_low_i8x16 data)`
sign-extends only the FIRST FOUR bytes of each 16-byte load, and that
`wasm_i16x8_extend_low_i8x16` is a signed extension. -/

/-- The bytes `buf[start], ..., buf[start+n-1]` as a list. -/
def bytesList (buf : ℕ → ℕ) (start n : ℕ) : List ℕ :=
  (List.range n).map (fun i => buf (start + i) % 256)

/-- Modelled from the spec: the zlib `adler32` scalar reference
(`s1 = 1 + Σ bytes mod 65521`, `s2 = Σ (s1 after each byte) mod 65521`,
result `(s2 <<< 16) ||| s1`, continued from the given seed).  The seed
unpacks as `s1 = adler & 0xffff`, `s2 = (adler >> 16) & 0xffff`; the
modulo is applied after every byte, which agrees with deferred
reduction. -/
def adler32Ref (adler : ℕ) (data : List ℕ) : ℕ :=
  let s := data.foldl
    (fun (p : ℕ × ℕ) b =>
      ((p.1 + b % 256) % 65521, (p.2 + (p.1 + b % 256) % 65521) % 65521))
    (adler % 65536, adler / 65536 % 65536)
  s.2 * 65536 + s.1

/-- Sign-extension of a byte to a 32-bit lane
(`wasm_i16x8_extend_low_i8x16` then `wasm_i32x4_extend_low_i16x8`): a
byte `≥ 128` becomes `b + 0xFFFFFF00` as a u32 bit pattern. -/
def sx8 (b : ℕ) : ℕ := if b % 256 < 128 then b % 256 else b % 256 + 4294967040

/-- Lane `l` of the `s1_acc` accumulator after the four
`wasm_i32x4_add`s of one 64-byte chunk: only bytes `base + 16*c + l`
for `c < 4`, `l < 4` take part (the `extend_low` pair discards lanes
4..15 of each load). -/
def adlerS1Lane (buf : ℕ → ℕ) (base l : ℕ) : ℕ :=
  (sx8 (buf (base + l)) + sx8 (buf (base + 16 + l)) + sx8 (buf (base + 32 + l)) +
    sx8 (buf (base + 48 + l))) % 4294967296

/-- Lane `l` of the `s2_acc` accumulator: each byte lane is multiplied
(`wasm_i32x4_mul`, wrapping) by its tap `16 - 4*c - l`. -/
def adlerS2Lane (buf : ℕ → ℕ) (base l : ℕ) : ℕ :=
  (sx8 (buf (base + l)) * (16 - l) % 4294967296 +
    sx8 (buf (base + 16 + l)) * (12 - l) % 4294967296 +
    sx8 (buf (base + 32 + l)) * (8 - l) % 4294967296 +
    sx8 (buf (base + 48 + l)) * (4 - l) % 4294967296) % 4294967296

/-- One iteration of the 64-byte SIMD loop: horizontal-sum the four
lanes of each accumulator (u32 additions), add into `s1`/`s2`, then
reduce `% 65521`. -/
def adlerChunkStep (buf : ℕ → ℕ) (base s1 s2 : ℕ) : ℕ × ℕ :=
  let s1sum := (adlerS1Lane buf base 0 + adlerS1Lane buf base 1 + adlerS1Lane buf base 2 +
    adlerS1Lane buf base 3) % 4294967296
  let s2sum := (adlerS2Lane buf base 0 + adlerS2Lane buf base 1 + adlerS2Lane buf base 2 +
    adlerS2Lane buf base 3) % 4294967296
  (((s1 + s1sum) % 4294967296) % 65521, ((s2 + s2sum) % 4294967296) % 65521)

/-- The `for (i = 0; i < simd_end; i += chunk_size)` loop, one fuel per
64-byte chunk. -/
def adlerSimdLoop (buf : ℕ → ℕ) : ℕ → ℕ → ℕ → ℕ → ℕ × ℕ
  | 0, _, s1, s2 => (s1, s2)
  | fuel + 1, base, s1, s2 =>
    let p := adlerChunkStep buf base s1 s2
    adlerSimdLoop buf fuel (base + 64) p.1 p.2

/-- `zlib_adler32_simd(adler, buf, len)`. -/
def zlib_adler32_simd (adler : ℕ) (buf : ℕ → ℕ) (len : ℕ) : ℕ :=
  if len < 64 then adler32Ref adler (bytesList buf 0 len)
  else
    let s1 := adler % 65536
    let s2 := adler / 65536 % 65536
    let simd_end := len / 64 * 64
    let p := adlerSimdLoop buf (len / 64) 0 s1 s2
    if simd_end < len then
      adler32Ref (p.2 * 65536 + p.1) (bytesList buf simd_end (len - simd_end))
    else p.2 * 65536 + p.1

/-- **C3 (failing input).** On the 64-byte buffer of `0x01` bytes with
seed 1, the scalar reference Adler32 is `(2144 <<< 16) ||| 65 =
140509249`, but `zlib_adler32_simd` takes the vectorized path and
returns `(136 <<< 16) ||| 17 = 8912913`: the two `extend_low`
intrinsics keep only the first 4 bytes of each 16-byte load, so the
SIMD path sums 16 of the 64 bytes and weights `s2` incorrectly.  The
claimed bit-for-bit agreement between the vectorized path and the
scalar path fails. -/
theorem claimC3_adler32_bug :
    zlib_adler32_simd 1 (fun _ => 1) 64 = 8912913 ∧
      adler32Ref 1 (bytesList (fun _ => 1) 0 64) = 140509249 ∧
      (8912913 : ℕ) ≠ 140509249 := by
  refine ⟨by decide, by decide, by decide⟩

/-! ## `zlib_crc32_simd_enhanced` (src/zlib_simd_optimized.c, lines 386-405)

The routine splits the input into 256-byte chunks and feeds each to the
library `crc32`, which is not part of src/.  `crc32Ref` below is
modelled from the spec: the standard bit-reversed CRC32 over the IEEE
802.3 polynomial (reflected polynomial `0xEDB88320`), continuable. -/

/-- Modelled from the spec: one bit step of reflected CRC32. -/
def crc32Bit (c : ℕ) : ℕ := if c % 2 = 1 then c / 2 ^^^ 0xEDB88320 else c / 2

/-- Modelled from the spec: absorb one byte into the running register. -/
def crc32Byte (c b : ℕ) : ℕ :=
  crc32Bit (crc32Bit (crc32Bit (crc32Bit (crc32Bit (crc32Bit (crc32Bit (crc32Bit
    (c ^^^ b % 256))))))))

/-- Modelled from the spec: the zlib `crc32(crc, data)` — pre- and
post-conditioning with `0xFFFFFFFF` around a fold of byte steps. -/
def crc32Ref (crc : ℕ) (data : List ℕ) : ℕ :=
  data.foldl crc32Byte (crc % 4294967296 ^^^ 0xFFFFFFFF) ^^^ 0xFFFFFFFF

set_option maxRecDepth 20000 in
/-- Sanity check from the spec's known vector:
`crc32(0, "123456789") = 0xCBF43926`. -/
theorem crc32Ref_check_vector :
    crc32Ref 0 [0x31, 0x32, 0x33, 0x34, 0x35, 0x36, 0x37, 0x38, 0x39] = 0xCBF43926 := by
  decide

/-- The `while (processed + chunk_size <= len)` loop followed by the
remainder call; one fuel per 256-byte chunk. -/
def crcChunkLoop (data : ℕ → ℕ) (len : ℕ) : ℕ → ℕ → ℕ → ℕ
  | 0, cur, processed =>
    if processed < len then crc32Ref cur (bytesList data processed (len - processed)) else cur
  | fuel + 1, cur, processed =>
    if processed + 256 ≤ len then
      crcChunkLoop data len fuel (crc32Ref cur (bytesList data processed 256)) (processed + 256)
    else
      if processed < len then crc32Ref cur (bytesList data processed (len - processed)) else cur

/-- `zlib_crc32_simd_enhanced(crc, data, len)`. -/
def zlib_crc32_simd_enhanced (crc : ℕ) (data : ℕ → ℕ) (len : ℕ) : ℕ :=
  crcChunkLoop data len (len / 256) crc 0

theorem xor32_lt (a b : ℕ) (ha : a < 4294967296) (hb : b < 4294967296) :
    a ^^^ b < 4294967296 := by
  have h32 : (4294967296 : ℕ) = 2 ^ 32 := by norm_num
  rw [h32] at ha hb ⊢
  exact Nat.xor_lt_two_pow ha hb

theorem crc32Bit_lt (c : ℕ) (h : c < 4294967296) : crc32Bit c < 4294967296 := by
  rw [crc32Bit]
  by_cases h2 : c % 2 = 1
  · simp only [if_pos h2]
    exact xor32_lt _ _ (by omega) (by norm_num)
  · simp only [if_neg h2]
    omega

theorem crc32Byte_lt (c b : ℕ) (h : c < 4294967296) : crc32Byte c b < 4294967296 := by
  have h0 : c ^^^ b % 256 < 4294967296 := xor32_lt _ _ h (by omega)
  exact crc32Bit_lt _ (crc32Bit_lt _ (crc32Bit_lt _ (crc32Bit_lt _ (crc32Bit_lt _
    (crc32Bit_lt _ (crc32Bit_lt _ (crc32Bit_lt _ h0)))))))

theorem crc32_foldl_lt (data : List ℕ) :
    ∀ (c : ℕ), c < 4294967296 → data.foldl crc32Byte c < 4294967296 := by
  induction data with
  | nil => intro c h; simpa using h
  | cons b rest ih =>
    intro c h
    simpa using ih (crc32Byte c b) (crc32Byte_lt c b h)

theorem crc32Ref_lt (crc : ℕ) (data : List ℕ) : crc32Ref crc data < 4294967296 := by
  rw [crc32Ref]
  have h0 : crc % 4294967296 ^^^ 0xFFFFFFFF < 4294967296 :=
    xor32_lt _ _ (by omega) (by norm_num)
  exact xor32_lt _ _ (crc32_foldl_lt data _ h0) (by norm_num)

/-- The continuability law the spec states:
`crc32(crc32(seed, A), B) = crc32(seed, A ++ B)`. -/
theorem crc32Ref_append (crc : ℕ) (a b : List ℕ) :
    crc32Ref (crc32Ref crc a) b = crc32Ref crc (a ++ b) := by
  have hlt := crc32Ref_lt crc a
  conv_lhs => rw [crc32Ref]
  rw [Nat.mod_eq_of_lt hlt]
  conv_lhs => rw [crc32Ref, Nat.xor_cancel_right]
  rw [crc32Ref, List.foldl_append]

theorem bytesList_append (data : ℕ → ℕ) (start a b : ℕ) :
    bytesList data start (a + b) = bytesList data start a ++ bytesList data (start + a) b := by
  rw [bytesList, bytesList, bytesList, List.range_add, List.map_append, List.map_map]
  congr 1
  apply List.map_congr_left
  intro i _
  simp only [Function.comp_apply]
  congr 2
  omega

theorem crcChunkLoop_spec (data : ℕ → ℕ) (len : ℕ) :
    ∀ (fuel : ℕ) (cur processed : ℕ), cur < 4294967296 → processed ≤ len →
      len - processed ≤ 256 * fuel + 255 →
      crcChunkLoop data len fuel cur processed =
        crc32Ref cur (bytesList data processed (len - processed)) := by
  intro fuel
  induction fuel with
  | zero =>
    intro cur processed hcur hple hlen
    rw [crcChunkLoop]
    by_cases h : processed < len
    · simp [h]
    · have h0 : len - processed = 0 := by omega
      simp only [if_neg h, h0]
      rw [bytesList, List.range_zero, List.map_nil, crc32Ref, List.foldl_nil,
        Nat.xor_cancel_right, Nat.mod_eq_of_lt hcur]
  | succ f ih =>
    intro cur processed hcur hple hlen
    rw [crcChunkLoop]
    by_cases h : processed + 256 ≤ len
    · simp only [if_pos h]
      rw [ih _ _ (crc32Ref_lt _ _) (by omega) (by omega)]
      rw [crc32Ref_append]
      congr 1
      rw [show len - processed = 256 + (len - (processed + 256)) by omega,
        bytesList_append]
    · simp only [if_neg h]
      by_cases h2 : processed < len
      · simp [h2]
      · have h0 : len - processed = 0 := by omega
        simp only [if_neg h2, h0]
        rw [bytesList, List.range_zero, List.map_nil, crc32Ref, List.foldl_nil,
          Nat.xor_cancel_right, Nat.mod_eq_of_lt hcur]

/-- **C8.** For every seed below `2^32` (the `uint32_t` argument
range), every byte buffer and every length, the internally 256-byte
chunked `zlib_crc32_simd_enhanced` returns exactly the one-pass
reference `crc32Ref` over the same bytes — the chunking never alters
the result, by the continuability law `crc32Ref_append`. -/
theorem claimC8_crc32_chunking (crc : ℕ) (data : ℕ → ℕ) (len : ℕ)
    (hcrc : crc < 4294967296) :
    zlib_crc32_simd_enhanced crc data len = crc32Ref crc (bytesList data 0 len) := by
  rw [zlib_crc32_simd_enhanced, crcChunkLoop_spec data len (len / 256) crc 0 hcrc
    (Nat.zero_le _) (by omega)]
  simp

/-- Witness for C8 at a concrete input: seed 0, 300 identical bytes
(crossing one 256-byte chunk boundary). -/
theorem claimC8_crc32_chunking_witness :
    (0 : ℕ) < 4294967296 ∧
      zlib_crc32_simd_enhanced 0 (fun _ => 7) 300 = crc32Ref 0 (bytesList (fun _ => 7) 0 300) :=
  ⟨by decide, claimC8_crc32_chunking 0 (fun _ => 7) 300 (by decide)⟩

/-! ## `simd_pack_bits` (src/zlib_simd_compression.c, lines 209-272)

`simd_bit_stream` holds a 64-bit accumulator, a valid-bit count, and an
output cursor/capacity.  The outer chunk-of-4 structure of
`simd_pack_bits` only batches the `wasm_i32x4_extract_lane` reads of
`codes[i..i+3]`; the `(code, length)` pairs are still consumed strictly
in index order, so the embedding iterates over indices one at a time.
Shifts follow wasm semantics (`i64.shl` masks the shift count `% 64`,
`i32.shr_u` masks it `% 32`). -/

/-- The `simd_bit_stream` struct.  `output` is the byte buffer as an
index-function. -/
structure BitStream where
  bit_buffer : ℕ
  bit_count : ℕ
  output : ℕ → ℕ
  output_pos : ℕ
  output_size : ℕ

/-- `(uint64_t)code << n` under wasm `i64.shl` (shift count mod 64). -/
def shl64 (x n : ℕ) : ℕ := x * 2 ^ (n % 64) % 18446744073709551616

/-- `code >>= n` on a `uint32_t` under wasm `i32.shr_u` (count mod 32). -/
def shr32 (x n : ℕ) : ℕ := x % 4294967296 / 2 ^ (n % 32)

/-- One iteration of the flush loop body: emit the low byte of the
accumulator if there is room (the `output_pos++` sits inside the bounds
check, so a full buffer silently discards the byte), then shift the
accumulator and drop 8 from the count regardless. -/
def emitByte (s : BitStream) : BitStream :=
  if s.output_pos < s.output_size then
    { s with
      output := fun j => if j = s.output_pos then s.bit_buffer % 256 else s.output j,
      output_pos := s.output_pos + 1,
      bit_buffer := s.bit_buffer / 256,
      bit_count := s.bit_count - 8 }
  else
    { s with bit_buffer := s.bit_buffer / 256, bit_count := s.bit_count - 8 }

/-- `while (stream->bit_count >= 8)`; each pass removes 8 from
`bit_count`, so `fuel = bit_count` is an upper bound. -/
def flushLoop : ℕ → BitStream → BitStream
  | 0, s => s
  | fuel + 1, s => if 8 ≤ s.bit_count then flushLoop fuel (emitByte s) else s

/-- The `while (length > 0)` loop of `simd_pack_bits` for one
`(code, length)` pair.  In the split branch the source ORs the low
`available_bits` of the code into the accumulator but does NOT add
them to `bit_count` before flushing — embedded exactly as written.
Fuel `length + 2` bounds the iterations of the source loop from any
state with `bit_count ≤ 64` (at most one pass makes no progress on
`length`, and every other pass strictly decreases it). -/
def packBitsLoop : ℕ → ℕ → ℕ → BitStream → BitStream
  | 0, _, _, s => s
  | fuel + 1, code, length, s =>
    if length = 0 then s
    else
      let avail := 64 - s.bit_count
      if length ≤ avail then
        { s with
          bit_buffer := (s.bit_buffer ||| shl64 code s.bit_count) % 18446744073709551616,
          bit_count := s.bit_count + length }
      else
        let s1 : BitStream :=
          { s with
            bit_buffer := (s.bit_buffer ||| shl64 code s.bit_count) % 18446744073709551616 }
        packBitsLoop fuel (shr32 code avail) (length - avail) (flushLoop s1.bit_count s1)

/-- The `for (j...)` walk over the pairs: `codes[i+j]` is a `uint32_t`
lane, `lengths[i+j]` a `uint8_t`. -/
def packSeq (codes lengths : ℕ → ℕ) : ℕ → ℕ → BitStream → BitStream
  | 0, _, s => s
  | n + 1, idx, s =>
    packSeq codes lengths n (idx + 1)
      (packBitsLoop (lengths idx % 256 + 2) (codes idx % 4294967296) (lengths idx % 256) s)

/-- `simd_pack_bits(stream, codes, lengths, count)`. -/
def simd_pack_bits (s : BitStream) (codes lengths : ℕ → ℕ) (count : ℕ) : BitStream :=
  packSeq codes lengths count 0 s

/-- LSB-first bits of one byte. -/
def byteBits (b : ℕ) : List Bool := (List.range 8).map (fun k => Nat.testBit b k)

/-- The observable bit string of a stream state, as a reference
LSB-first bit-reader sees it: the emitted bytes in order, then the
`bit_count` pending low bits of the accumulator. -/
def obsBits (s : BitStream) : List Bool :=
  ((List.range s.output_pos).map (fun i => byteBits (s.output i % 256))).flatten ++
    (List.range s.bit_count).map (fun k => Nat.testBit s.bit_buffer k)

/-- The reference bit string of a `(code, length)` sequence: the
`length` low-order bits of each code, LSB-first, concatenated. -/
def refBitsOfPairs (ps : List (ℕ × ℕ)) : List Bool :=
  (ps.map (fun p => (List.range p.2).map (fun k => Nat.testBit (p.1 % 4294967296) k))).flatten

/-- **C2 (failing input).** Packing `(0, 32)`, `(0, 28)`, `(0xAB, 8)`
— every length within the claim's `0 ≤ length ≤ 32` domain — into a
fresh stream with ample capacity (100 bytes) must leave the observable
bit string equal to 60 zero bits followed by the 8 LSB-first bits of
`0xAB`.  It does not: the third pack finds only 4 bits free, and the
split path ORs the 4 low bits of `0xAB` into the accumulator but never
adds them to `bit_count`, so after the flush the next 4 bits are ORed
on top of them (`0xB0 ||| 0xA0 = 0xB0`) — the high nibble `0xA` is
lost and the stream holds 64 bits instead of 68.  A reference
LSB-first bit-reader cannot recover the packed sequence. -/
theorem claimC2_pack_bits_bug :
    obsBits (simd_pack_bits ⟨0, 0, fun _ => 0, 0, 100⟩
        (fun i => if i = 2 then 0xAB else 0)
        (fun i => if i = 0 then 32 else if i = 1 then 28 else 8) 3) ≠
      refBitsOfPairs [(0, 32), (0, 28), (0xAB, 8)] ∧
    (simd_pack_bits ⟨0, 0, fun _ => 0, 0, 100⟩
        (fun i => if i = 2 then 0xAB else 0)
        (fun i => if i = 0 then 32 else if i = 1 then 28 else 8) 3).bit_count = 8 ∧
    (simd_pack_bits ⟨0, 0, fun _ => 0, 0, 100⟩
        (fun i => if i = 2 then 0xAB else 0)
        (fun i => if i = 0 then 32 else if i = 1 then 28 else 8) 3).bit_buffer = 0xB0 := by
  refine ⟨by decide, by decide, by decide⟩

/-- Frame property relating a stream state to a later one: the declared
capacity is unchanged, no byte at or beyond the capacity is touched,
and the cursor stays within `max output_pos output_size`. -/
def frameOk (s t : BitStream) : Prop :=
  t.output_size = s.output_size ∧
    (∀ j, s.output_size ≤ j → t.output j = s.output j) ∧
    t.output_pos ≤ max s.output_pos s.output_size

theorem frameOk_refl (s : BitStream) : frameOk s s :=
  ⟨rfl, fun _ _ => rfl, le_max_left _ _⟩

theorem frameOk_trans {s t u : BitStream} (h1 : frameOk s t) (h2 : frameOk t u) :
    frameOk s u := by
  obtain ⟨ha1, ha2, ha3⟩ := h1
  obtain ⟨hb1, hb2, hb3⟩ := h2
  refine ⟨hb1.trans ha1, fun j hj => (hb2 j (by omega)).trans (ha2 j hj), ?_⟩
  have := max_le_max_right s.output_size ha3
  omega

theorem emitByte_frameOk (s : BitStream) : frameOk s (emitByte s) := by
  rw [emitByte]
  by_cases h : s.output_pos < s.output_size
  · refine ⟨by simp only [if_pos h], fun j hj => ?_, ?_⟩
    · simp only [if_pos h]
      have hne : ¬ (j = s.output_pos) := by omega
      simp [hne]
    · simp only [if_pos h]
      have := le_max_right s.output_pos s.output_size
      omega
  · refine ⟨by simp only [if_neg h], fun j hj => by simp only [if_neg h], ?_⟩
    simp only [if_neg h]
    exact le_max_left _ _

theorem flushLoop_frameOk : ∀ (fuel : ℕ) (s : BitStream), frameOk s (flushLoop fuel s) := by
  intro fuel
  induction fuel with
  | zero => intro s; exact frameOk_refl s
  | succ f ih =>
    intro s
    rw [flushLoop]
    by_cases h : 8 ≤ s.bit_count
    · simp only [if_pos h]
      exact frameOk_trans (emitByte_frameOk s) (ih (emitByte s))
    · simp only [if_neg h]
      exact frameOk_refl s

theorem packBitsLoop_frameOk :
    ∀ (fuel code length : ℕ) (s : BitStream), frameOk s (packBitsLoop fuel code length s) := by
  intro fuel
  induction fuel with
  | zero => intro _ _ s; exact frameOk_refl s
  | succ f ih =>
    intro code length s
    rw [packBitsLoop]
    by_cases h0 : length = 0
    · simp only [if_pos h0]; exact frameOk_refl s
    · simp only [if_neg h0]
      by_cases h1 : length ≤ 64 - s.bit_count
      · simp only [if_pos h1]
        exact ⟨rfl, fun _ _ => rfl, le_max_left _ _⟩
      · simp only [if_neg h1]
        have hmid : frameOk s
            ({ s with bit_buffer :=
                (s.bit_buffer ||| shl64 code s.bit_count) % 18446744073709551616 } : BitStream) :=
          ⟨rfl, fun _ _ => rfl, le_max_left _ _⟩
        exact frameOk_trans hmid (frameOk_trans (flushLoop_frameOk _ _) (ih _ _ _))

theorem packSeq_frameOk (codes lengths : ℕ → ℕ) :
    ∀ (n idx : ℕ) (s : BitStream), frameOk s (packSeq codes lengths n idx s) := by
  intro n
  induction n with
  | zero => intro _ s; exact frameOk_refl s
  | succ k ih =>
    intro idx s
    rw [packSeq]
    exact frameOk_trans (packBitsLoop_frameOk _ _ _ s) (ih _ _)

/-- **C7 (amended).** `simd_pack_bits` never writes any output byte at
or beyond `output_size`, and when the cursor starts within the declared
capacity it stays within it.  (The rest of the original claim fails:
overflow is NOT surfaced to the caller — see the counterexample.) -/
theorem claimC7_pack_no_overflow (s : BitStream) (codes lengths : ℕ → ℕ) (count j : ℕ)
    (hj : s.output_size ≤ j) (hpos : s.output_pos ≤ s.output_size) :
    (simd_pack_bits s codes lengths count).output j = s.output j ∧
      (simd_pack_bits s codes lengths count).output_pos ≤ s.output_size := by
  obtain ⟨h1, h2, h3⟩ := packSeq_frameOk codes lengths count 0 s
  have hs : simd_pack_bits s codes lengths count = packSeq codes lengths count 0 s := rfl
  rw [hs]
  exact ⟨h2 j hj, by omega⟩

/-- Witness for C7 at a concrete instance: capacity 2, cursor 0; after
packing three pairs, the byte at out-of-capacity index 5 still holds
its original value 9 and the cursor is at most 2. -/
theorem claimC7_pack_no_overflow_witness :
    (simd_pack_bits ⟨0, 0, fun _ => 9, 0, 2⟩ (fun _ => 0xFFFF) (fun _ => 16) 3).output 5 = 9 ∧
      (simd_pack_bits ⟨0, 0, fun _ => 9, 0, 2⟩ (fun _ => 0xFFFF) (fun _ => 16) 3).output_pos ≤ 2 :=
  claimC7_pack_no_overflow ⟨0, 0, fun _ => 9, 0, 2⟩ (fun _ => 0xFFFF) (fun _ => 16) 3 5
    (by decide) (by decide)

/-- **C7 (counterexample to the original claim).** The original claim
says an attempt to pack bits past the destination capacity "is
reported to the caller as an explicit error result, not silently
ignored".  `simd_pack_bits` returns only the stream state (the C
function returns `void`): starting from a full stream (capacity 0) with
60 pending accumulator bits and packing 8 more bits, the flush drops
seven whole bytes on the floor — afterwards only 8 bits remain
accounted (`8*output_pos + bit_count = 8`) out of the 68 that a
non-discarding packer would have to carry, and nothing in the result
signals the overflow. -/
theorem claimC7_pack_overflow_silent :
    8 * (simd_pack_bits ⟨0, 60, fun _ => 0, 0, 0⟩
          (fun _ => 0xAB) (fun _ => 8) 1).output_pos +
        (simd_pack_bits ⟨0, 60, fun _ => 0, 0, 0⟩
          (fun _ => 0xAB) (fun _ => 8) 1).bit_count = 8 ∧
      (8 : ℕ) ≠ 60 + 8 := by
  refine ⟨by decide, by decide⟩

/-! ## `zlib_compress_buffer` (src/wasm_module.c lines 23-35 and
src/wasm_module_side.c lines 17-22)

Both wrappers delegate the actual compression to the external library
`compress2`; the observable behaviour decided in src/ is whether the
call returns an error code before reaching `compress2`, and which
effective level is handed over.  `CompressCall` captures exactly that
control decision. -/

/-- Outcome of the wrapper's argument checking: an early error return,
or a call into `compress2` with the effective level. -/
inductive CompressCall where
  | err (code : ℤ)
  | proceed (level : ℤ)
deriving DecidableEq

/-- `Z_STREAM_ERROR`. -/
def zSTREAM_ERROR : ℤ := -2

/-- `Z_DEFAULT_COMPRESSION`. -/
def zDEFAULT_COMPRESSION : ℤ := -1

/-- `zlib_compress_buffer` from `wasm_module.c`: checks the buffers for
null and the source length for zero, then silently clamps an
out-of-range level to `Z_DEFAULT_COMPRESSION` before calling
`compress2`. -/
def zlib_compress_buffer (srcNull destNull destLenNull : Bool) (src_len : ℕ) (level : ℤ) :
    CompressCall :=
  if srcNull ∨ destNull ∨ destLenNull ∨ src_len = 0 then .err zSTREAM_ERROR
  else .proceed (if level < 0 ∨ 9 < level then zDEFAULT_COMPRESSION else level)

/-- `zlib_compress_buffer` from `wasm_module_side.c`: no argument check
at all beyond the level clamp. -/
def zlib_compress_buffer_side (src_len : ℕ) (level : ℤ) : CompressCall :=
  .proceed (if level < 0 ∨ 9 < level then zDEFAULT_COMPRESSION else level)

/-- **C9 (counterexample to the original claim).** The claim requires a
compression level outside the valid range to yield an explicit
InvalidArgument error.  With valid non-null buffers, a 10-byte input
and level 10, the main-module wrapper instead proceeds straight into
`compress2` with the silently substituted default level — no error is
returned. -/
theorem claimC9_level_not_rejected :
    zlib_compress_buffer false false false 10 10 = .proceed zDEFAULT_COMPRESSION ∧
      CompressCall.proceed zDEFAULT_COMPRESSION ≠ .err zSTREAM_ERROR := by
  refine ⟨by decide, by decide⟩

/-- **C9 (amended).** A zero-length input makes the main-module
`zlib_compress_buffer` return the explicit error `Z_STREAM_ERROR`
(the code's rendering of InvalidArgument) and no compression is
attempted; but an out-of-range level is NOT an error: with valid
buffers the main wrapper proceeds with `Z_DEFAULT_COMPRESSION`
substituted, and the side-module wrapper never returns an error for any
argument (it performs no zero-length check at all). -/
theorem claimC9_argument_checks (src_len : ℕ) (level : ℤ) :
    (src_len = 0 → zlib_compress_buffer false false false src_len level = .err zSTREAM_ERROR) ∧
      (src_len ≠ 0 → (level < 0 ∨ 9 < level) →
        zlib_compress_buffer false false false src_len level = .proceed zDEFAULT_COMPRESSION) ∧
      (∀ c, zlib_compress_buffer_side src_len level ≠ .err c) := by
  refine ⟨fun h0 => by simp [zlib_compress_buffer, h0], fun h0 hl => ?_, fun c => by
    simp [zlib_compress_buffer_side]⟩
  simp [zlib_compress_buffer, h0, hl]

/-- Witness for C9: the zero-length check fires at `src_len = 0`, and
at `src_len = 7`, `level = 10` the wrapper proceeds with the default
level. -/
theorem claimC9_argument_checks_witness :
    zlib_compress_buffer false false false 0 10 = .err zSTREAM_ERROR ∧
      zlib_compress_buffer false false false 7 10 = .proceed zDEFAULT_COMPRESSION :=
  ⟨(claimC9_argument_checks 0 10).1 rfl,
   (claimC9_argument_checks 7 10).2.1 (by decide) (by decide)⟩

/-! ## `zlib_longest_match_simd` (src/zlib_simd_optimized.c, lines 209-292)

Positions are `ℕ` offsets from the window base; `prev_table` is a
`uint16_t` array read as `prevT idx % 65536`.  `scan_start` is the
8-byte load at the scan position, taken once on entry; `scan_end` is
re-read only when an improvement keeps `best_len < lookahead`.  The
batch-of-4 candidate buffer, the `break` on `best_len >= 258` (which
leaves only the inner `for`), and the post-loop processing of leftover
candidates (which neither refreshes `scan_end` nor breaks) are embedded
exactly. -/

/-- The inner `for (i = 0; i < 4; i++)` over one full candidate batch.
State is `(best_len, match_start, scan_end)`. -/
def lmCands (w : Mem) (ss strstart lookahead : ℕ) :
    List ℕ → ℕ → Option ℕ → ℕ → ℕ × Option ℕ × ℕ
  | [], bl, ms, se => (bl, ms, se)
  | c :: rest, bl, ms, se =>
    if read64 w (c : ℤ) = ss ∧ read64 w ((c : ℤ) + (bl : ℤ) - 7) = se then
      let ml := min (zlib_compare256_simd w (strstart : ℤ) (c : ℤ)) lookahead
      if bl < ml then
        let se' := if ml < lookahead then read64 w ((strstart : ℤ) + (ml : ℤ) - 7) else se
        if 258 ≤ ml then (ml, some c, se')
        else lmCands w ss strstart lookahead rest ml (some c) se'
      else lmCands w ss strstart lookahead rest bl ms se
    else lmCands w ss strstart lookahead rest bl ms se

/-- The post-loop `for (i = 0; i < candidate_count; i++)` over leftover
candidates: same screening, but no `scan_end` refresh and no break. -/
def lmRem (w : Mem) (ss strstart lookahead se : ℕ) :
    List ℕ → ℕ → Option ℕ → ℕ × Option ℕ
  | [], bl, ms => (bl, ms)
  | c :: rest, bl, ms =>
    if read64 w (c : ℤ) = ss ∧ read64 w ((c : ℤ) + (bl : ℤ) - 7) = se then
      let ml := min (zlib_compare256_simd w (strstart : ℤ) (c : ℤ)) lookahead
      if bl < ml then lmRem w ss strstart lookahead se rest ml (some c)
      else lmRem w ss strstart lookahead se rest bl ms
    else lmRem w ss strstart lookahead se rest bl ms

/-- The `while (chain_length-- && cur_match > limit)` traversal.  The
fuel argument IS the remaining `chain_length` (the loop exits when it
hits 0).  Returns `(best_len, match_start, scan_end, leftover
candidates)`. -/
def lmLoop (w : Mem) (prevT : ℕ → ℕ) (wmask ss strstart lookahead limit : ℕ) :
    ℕ → ℕ → List ℕ → ℕ → Option ℕ → ℕ → ℕ × Option ℕ × ℕ × List ℕ
  | 0, _, cands, bl, ms, se => (bl, ms, se, cands)
  | fuel + 1, cur, cands, bl, ms, se =>
    if limit < cur then
      let cands' := cands ++ [cur]
      if cands'.length = 4 then
        let r := lmCands w ss strstart lookahead cands' bl ms se
        lmLoop w prevT wmask ss strstart lookahead limit fuel
          (prevT (cur &&& wmask) % 65536) [] r.1 r.2.1 r.2.2
      else
        lmLoop w prevT wmask ss strstart lookahead limit fuel
          (prevT (cur &&& wmask) % 65536) cands' bl ms se
    else (bl, ms, se, cands)

/-- `zlib_longest_match_simd(window, strstart, prev_length, good_match,
max_chain_length, lookahead, prev_table, wmask, &match_start)`: returns
the final `best_len` paired with the value written through
`match_start` (`none` when the out-parameter is never written). -/
def zlib_longest_match_simd (w : Mem)
    (strstart prev_length good_match max_chain_length lookahead : ℕ)
    (prevT : ℕ → ℕ) (wmask : ℕ) : ℕ × Option ℕ :=
  let bl0 := if 3 < prev_length then prev_length else 3
  let chain0 := if good_match ≤ bl0 then max_chain_length / 4 else max_chain_length
  let ss := read64 w (strstart : ℤ)
  let se0 := read64 w ((strstart : ℤ) + (bl0 : ℤ) - 7)
  let limit := if 32768 < strstart then strstart - 32768 else 0
  let cur0 := prevT (strstart &&& wmask) % 65536
  let r := lmLoop w prevT wmask ss strstart lookahead limit chain0 cur0 [] bl0 none se0
  lmRem w ss strstart lookahead r.2.2.1 r.2.2.2 r.1 r.2.1

/-! ## `simd_find_longest_match` (src/zlib_simd_compression.c, lines 120-206)

`simd_deflate_state` is modelled with the fields this function reads:
the window bytes, the `uint16_t` chain table, and the lookahead size.
`pos - chain_pos` and `pos - candidate_pos` are `uint32_t`
subtractions (modelled by `u32sub`), and `simd_string_match`
(lines 88-117) is its vectorized run comparison; `max_match_len` is an
`int` modelled as `ℕ` (all calls in scope pass nonnegative lengths). -/

/-- The fields of `simd_deflate_state` that `simd_find_longest_match`
reads. -/
structure SimdDeflateState where
  window_buffer : Mem
  chain_table : ℕ → ℕ
  lookahead_size : ℕ

/-- `uint32_t` subtraction `a - b`. -/
def u32sub (a b : ℕ) : ℕ := (a % 4294967296 + 4294967296 - b % 4294967296) % 4294967296

/-- Scalar tail of `simd_string_match`:
`while (len < max_len && str1[len] == str2[len]) len++`. -/
def ssmScalar (m : Mem) (a b : ℤ) (maxl : ℕ) : ℕ → ℕ → ℕ
  | 0, len => len
  | fuel + 1, len =>
    if len < maxl ∧ byteAt m (a + (len : ℤ)) = byteAt m (b + (len : ℤ)) then
      ssmScalar m a b maxl fuel (len + 1)
    else len

/-- SIMD chunk loop of `simd_string_match`:
`for (i = 0; i < simd_chunks; i += 16)`, returning
`i + __builtin_ctz(~mask)` (the first mismatching lane) on a partial
mask, else falling through to the scalar tail. -/
def ssmLoop (m : Mem) (a b : ℤ) (maxl : ℕ) : ℕ → ℕ → ℕ
  | 0, i => ssmScalar m a b maxl (maxl - i) i
  | fuel + 1, i =>
    if i < maxl / 16 * 16 then
      let d := firstDiff16 m a b i
      if d = 16 then ssmLoop m a b maxl fuel (i + 16) else i + d
    else ssmScalar m a b maxl (maxl - i) i

/-- `simd_string_match(str1, str2, max_len)`. -/
def simd_string_match (m : Mem) (a b : ℤ) (maxl : ℕ) : ℕ :=
  if maxl < 16 then ssmScalar m a b maxl maxl 0
  else ssmLoop m a b maxl (maxl / 16) 0

/-- One batch of four collected chain candidates, with the quick
first/third character screening before the run comparison.  State is
`(best_match_len, best_dist)`. -/
def sflmBatch (w : Mem) (pos la mml : ℕ) : List ℕ → ℕ → ℕ → ℕ × ℕ
  | [], b, d => (b, d)
  | c :: rest, b, d =>
    let dist := u32sub pos c
    if 0 < dist ∧ dist ≤ 32768 then
      if byteAt w (pos : ℤ) = byteAt w (c : ℤ) ∧
          byteAt w ((pos : ℤ) + 2) = byteAt w ((c : ℤ) + 2) then
        let ml := simd_string_match w (pos : ℤ) (c : ℤ) (min mml la)
        if b < ml then sflmBatch w pos la mml rest ml dist
        else sflmBatch w pos la mml rest b d
      else sflmBatch w pos la mml rest b d
    else sflmBatch w pos la mml rest b d

/-- The post-loop leftover candidates: distance guard but no character
screening (source lines 188-202). -/
def sflmRem (w : Mem) (pos la mml : ℕ) : List ℕ → ℕ → ℕ → ℕ × ℕ
  | [], b, d => (b, d)
  | c :: rest, b, d =>
    let dist := u32sub pos c
    if 0 < dist ∧ dist ≤ 32768 then
      let ml := simd_string_match w (pos : ℤ) (c : ℤ) (min mml la)
      if b < ml then sflmRem w pos la mml rest ml dist
      else sflmRem w pos la mml rest b d
    else sflmRem w pos la mml rest b d

/-- The `while (chain_pos != 0 && chain_count < 256 && pos - chain_pos
<= 32768)` traversal; fuel counts `256 - chain_count`.  The advance
`chain_pos = chain_table[chain_pos]` happens only for `chain_pos <
32768`, otherwise the loop breaks (keeping any fresh batch reset). -/
def sflmLoop (w : Mem) (chainT : ℕ → ℕ) (pos la mml : ℕ) :
    ℕ → ℕ → List ℕ → ℕ → ℕ → ℕ × ℕ × List ℕ
  | 0, _, cands, b, d => (b, d, cands)
  | fuel + 1, cp, cands, b, d =>
    if cp ≠ 0 ∧ u32sub pos cp ≤ 32768 then
      let cands' := cands ++ [cp]
      if cands'.length = 4 then
        let r := sflmBatch w pos la mml cands' b d
        if cp < 32768 then
          sflmLoop w chainT pos la mml fuel (chainT cp % 65536) [] r.1 r.2
        else (r.1, r.2, [])
      else
        if cp < 32768 then
          sflmLoop w chainT pos la mml fuel (chainT cp % 65536) cands' b d
        else (b, d, cands')
    else (b, d, cands)

/-- `simd_find_longest_match(state, pos, &best_distance,
max_match_len)`: returns `(best_match_len, best_distance)`, where the
distance component is `none` exactly on the early
`lookahead_size < 3` return (the out-parameter is not written there). -/
def simd_find_longest_match (st : SimdDeflateState) (pos mml : ℕ) : ℕ × Option ℕ :=
  if st.lookahead_size < 3 then (0, none)
  else
    let w := st.window_buffer
    let hash := if pos + 2 < 32768 then
        (byteAt w (pos : ℤ) * 65536 + byteAt w ((pos : ℤ) + 1) * 256 +
          byteAt w ((pos : ℤ) + 2)) % 32768
      else 0
    let cp0 := st.chain_table hash % 65536
    let r := sflmLoop w st.chain_table pos st.lookahead_size mml 256 cp0 [] 0 0
    let r2 := sflmRem w pos st.lookahead_size mml r.2.2 r.1 r.2.1
    (r2.1, some r2.2)

theorem lmCands_no_lookahead (w : Mem) (ss strstart lookahead : ℕ)
    (hla : lookahead < 3) :
    ∀ (cands : List ℕ) (bl : ℕ) (ms : Option ℕ) (se : ℕ), 3 ≤ bl →
      lmCands w ss strstart lookahead cands bl ms se = (bl, ms, se) := by
  intro cands
  induction cands with
  | nil => intro bl ms se _; rfl
  | cons c rest ih =>
    intro bl ms se hbl
    rw [lmCands]
    have hml : ¬ bl < min (zlib_compare256_simd w (strstart : ℤ) (c : ℤ)) lookahead := by
      have := Nat.min_le_right (zlib_compare256_simd w (strstart : ℤ) (c : ℤ)) lookahead
      omega
    by_cases hscr : read64 w (c : ℤ) = ss ∧ read64 w ((c : ℤ) + (bl : ℤ) - 7) = se
    · simp only [if_pos hscr, if_neg hml]
      exact ih bl ms se hbl
    · simp only [if_neg hscr]
      exact ih bl ms se hbl

theorem lmRem_no_lookahead (w : Mem) (ss strstart lookahead se : ℕ)
    (hla : lookahead < 3) :
    ∀ (cands : List ℕ) (bl : ℕ) (ms : Option ℕ), 3 ≤ bl →
      lmRem w ss strstart lookahead se cands bl ms = (bl, ms) := by
  intro cands
  induction cands with
  | nil => intro bl ms _; rfl
  | cons c rest ih =>
    intro bl ms hbl
    rw [lmRem]
    have hml : ¬ bl < min (zlib_compare256_simd w (strstart : ℤ) (c : ℤ)) lookahead := by
      have := Nat.min_le_right (zlib_compare256_simd w (strstart : ℤ) (c : ℤ)) lookahead
      omega
    by_cases hscr : read64 w (c : ℤ) = ss ∧ read64 w ((c : ℤ) + (bl : ℤ) - 7) = se
    · simp only [if_pos hscr, if_neg hml]
      exact ih bl ms hbl
    · simp only [if_neg hscr]
      exact ih bl ms hbl

theorem lmLoop_no_lookahead (w : Mem) (prevT : ℕ → ℕ) (wmask ss strstart lookahead limit : ℕ)
    (hla : lookahead < 3) :
    ∀ (fuel cur : ℕ) (cands : List ℕ) (bl : ℕ) (ms : Option ℕ) (se : ℕ), 3 ≤ bl →
      (lmLoop w prevT wmask ss strstart lookahead limit fuel cur cands bl ms se).1 = bl ∧
        (lmLoop w prevT wmask ss strstart lookahead limit fuel cur cands bl ms se).2.1 = ms ∧
        (lmLoop w prevT wmask ss strstart lookahead limit fuel cur cands bl ms se).2.2.1 = se := by
  intro fuel
  induction fuel with
  | zero => intro cur cands bl ms se _; exact ⟨rfl, rfl, rfl⟩
  | succ f ih =>
    intro cur cands bl ms se hbl
    rw [lmLoop]
    by_cases hcur : limit < cur
    · simp only [if_pos hcur]
      by_cases h4 : (cands ++ [cur]).length = 4
      · simp only [if_pos h4, lmCands_no_lookahead w ss strstart lookahead hla _ bl ms se hbl]
        exact ih _ _ _ _ _ hbl
      · simp only [if_neg h4]
        exact ih _ _ _ _ _ hbl
    · simp [if_neg hcur]

/-- **C6.** When the valid lookahead is below 3 bytes neither
longest-match search reports a usable match candidate:
`simd_find_longest_match` immediately returns `(0, none)` (the early
`lookahead_size < 3` exit, before `best_distance` is written), and
`zlib_longest_match_simd` returns the incoming baseline
`max prev_length 3` with the `match_start` out-parameter never written
(`none`) — no candidate can improve on the baseline because every
comparison is capped by the lookahead. -/
theorem claimC6_small_lookahead (w : Mem)
    (strstart prev_length good_match max_chain_length lookahead : ℕ)
    (prevT : ℕ → ℕ) (wmask : ℕ) (st : SimdDeflateState) (pos mml : ℕ)
    (hla : lookahead < 3) (hst : st.lookahead_size < 3) :
    zlib_longest_match_simd w strstart prev_length good_match max_chain_length lookahead
        prevT wmask = (max prev_length 3, none) ∧
      simd_find_longest_match st pos mml = (0, none) := by
  constructor
  · rw [zlib_longest_match_simd]
    have hbl0 : (if 3 < prev_length then prev_length else 3) = max prev_length 3 := by
      rcases Nat.lt_or_ge 3 prev_length with h | h
      · rw [if_pos h, Nat.max_eq_left (by omega)]
      · rw [if_neg (by omega), Nat.max_eq_right (by omega)]
    obtain ⟨h1, h2, h3⟩ := lmLoop_no_lookahead w prevT wmask
      (read64 w (strstart : ℤ))
      strstart lookahead (if 32768 < strstart then strstart - 32768 else 0) hla
      (if good_match ≤ (if 3 < prev_length then prev_length else 3) then
        max_chain_length / 4 else max_chain_length)
      (prevT (strstart &&& wmask) % 65536) []
      (if 3 < prev_length then prev_length else 3) none
      (read64 w ((strstart : ℤ) + (((if 3 < prev_length then prev_length else 3) : ℕ) : ℤ) - 7))
      (by split <;> omega)
    rw [h1, h2]
    rw [lmRem_no_lookahead w _ strstart lookahead _ hla _ _ _ (by split <;> omega)]
    rw [hbl0]
  · rw [simd_find_longest_match, if_pos hst]

/-- Witness for C6 at lookahead 2. -/
theorem claimC6_small_lookahead_witness :
    zlib_longest_match_simd (fun _ => 0) 5 0 100 4 2 (fun _ => 5) 32767 = (max 0 3, none) ∧
      simd_find_longest_match ⟨fun _ => 0, fun _ => 0, 2⟩ 7 258 = (0, none) :=
  claimC6_small_lookahead (fun _ => 0) 5 0 100 4 2 (fun _ => 5) 32767
    ⟨fun _ => 0, fun _ => 0, 2⟩ 7 258 (by decide) (by decide)

/-- Invariant carried through the chain traversal of
`zlib_longest_match_simd`: the running best length is at least the
3-byte baseline, and once `match_start` has been written the best
length came from a capped comparison (`≤ 256` and `≤ lookahead`) at a
candidate strictly between `limit` and `strstart`. -/
def lmInv (strstart lookahead limit bl : ℕ) (ms : Option ℕ) : Prop :=
  3 ≤ bl ∧ ∀ c, ms = some c → bl ≤ 256 ∧ bl ≤ lookahead ∧ limit < c ∧ c < strstart

theorem lmCands_inv (w : Mem) (ss strstart lookahead limit : ℕ) :
    ∀ (cands : List ℕ) (bl : ℕ) (ms : Option ℕ) (se : ℕ),
      lmInv strstart lookahead limit bl ms →
      (∀ c ∈ cands, limit < c ∧ c < strstart) →
      lmInv strstart lookahead limit
          (lmCands w ss strstart lookahead cands bl ms se).1
          (lmCands w ss strstart lookahead cands bl ms se).2.1 ∧
        bl ≤ (lmCands w ss strstart lookahead cands bl ms se).1 := by
  intro cands
  induction cands with
  | nil => intro bl ms se hinv _; exact ⟨hinv, le_refl _⟩
  | cons c rest ih =>
    intro bl ms se hinv hmem
    simp only [lmCands]
    by_cases hscr : read64 w (c : ℤ) = ss ∧ read64 w ((c : ℤ) + (bl : ℤ) - 7) = se
    · simp only [if_pos hscr]
      by_cases himp : bl < min (zlib_compare256_simd w (strstart : ℤ) (c : ℤ)) lookahead
      · simp only [if_pos himp]
        have hml256 : min (zlib_compare256_simd w (strstart : ℤ) (c : ℤ)) lookahead ≤ 256 :=
          le_trans (Nat.min_le_left _ _) (zlib_compare256_simd_le w _ _)
        have hmlla : min (zlib_compare256_simd w (strstart : ℤ) (c : ℤ)) lookahead ≤ lookahead :=
          Nat.min_le_right _ _
        have hc := hmem c (List.mem_cons_self c rest)
        have hinv' : lmInv strstart lookahead limit
            (min (zlib_compare256_simd w (strstart : ℤ) (c : ℤ)) lookahead) (some c) := by
          refine ⟨by have := hinv.1; omega, ?_⟩
          intro c' hsome
          injection hsome with h2
          subst h2
          exact ⟨hml256, hmlla, hc.1, hc.2⟩
        by_cases h258 : 258 ≤ min (zlib_compare256_simd w (strstart : ℤ) (c : ℤ)) lookahead
        · simp only [if_pos h258]
          exact ⟨hinv', by omega⟩
        · simp only [if_neg h258]
          have hrec := ih (min (zlib_compare256_simd w (strstart : ℤ) (c : ℤ)) lookahead)
            (some c)
            (if min (zlib_compare256_simd w (strstart : ℤ) (c : ℤ)) lookahead < lookahead then
              read64 w ((strstart : ℤ) +
                ((min (zlib_compare256_simd w (strstart : ℤ) (c : ℤ)) lookahead : ℕ) : ℤ) - 7)
            else se)
            hinv' (fun c' hc' => hmem c' (List.mem_cons_of_mem _ hc'))
          exact ⟨hrec.1, le_trans (le_of_lt himp) hrec.2⟩
      · simp only [if_neg himp]
        exact ih bl ms se hinv (fun c' hc' => hmem c' (List.mem_cons_of_mem _ hc'))
    · simp only [if_neg hscr]
      exact ih bl ms se hinv (fun c' hc' => hmem c' (List.mem_cons_of_mem _ hc'))

theorem lmRem_inv (w : Mem) (ss strstart lookahead limit se : ℕ) :
    ∀ (cands : List ℕ) (bl : ℕ) (ms : Option ℕ),
      lmInv strstart lookahead limit bl ms →
      (∀ c ∈ cands, limit < c ∧ c < strstart) →
      lmInv strstart lookahead limit
          (lmRem w ss strstart lookahead se cands bl ms).1
          (lmRem w ss strstart lookahead se cands bl ms).2 ∧
        bl ≤ (lmRem w ss strstart lookahead se cands bl ms).1 := by
  intro cands
  induction cands with
  | nil => intro bl ms hinv _; exact ⟨hinv, le_refl _⟩
  | cons c rest ih =>
    intro bl ms hinv hmem
    simp only [lmRem]
    by_cases hscr : read64 w (c : ℤ) = ss ∧ read64 w ((c : ℤ) + (bl : ℤ) - 7) = se
    · simp only [if_pos hscr]
      by_cases himp : bl < min (zlib_compare256_simd w (strstart : ℤ) (c : ℤ)) lookahead
      · simp only [if_pos himp]
        have hml256 : min (zlib_compare256_simd w (strstart : ℤ) (c : ℤ)) lookahead ≤ 256 :=
          le_trans (Nat.min_le_left _ _) (zlib_compare256_simd_le w _ _)
        have hmlla : min (zlib_compare256_simd w (strstart : ℤ) (c : ℤ)) lookahead ≤ lookahead :=
          Nat.min_le_right _ _
        have hc := hmem c (List.mem_cons_self c rest)
        have hinv' : lmInv strstart lookahead limit
            (min (zlib_compare256_simd w (strstart : ℤ) (c : ℤ)) lookahead) (some c) := by
          refine ⟨by have := hinv.1; omega, ?_⟩
          intro c' hsome
          injection hsome with h2
          subst h2
          exact ⟨hml256, hmlla, hc.1, hc.2⟩
        have hrec := ih (min (zlib_compare256_simd w (strstart : ℤ) (c : ℤ)) lookahead) (some c)
          hinv' (fun c' hc' => hmem c' (List.mem_cons_of_mem _ hc'))
        exact ⟨hrec.1, le_trans (le_of_lt himp) hrec.2⟩
      · simp only [if_neg himp]
        exact ih bl ms hinv (fun c' hc' => hmem c' (List.mem_cons_of_mem _ hc'))
    · simp only [if_neg hscr]
      exact ih bl ms hinv (fun c' hc' => hmem c' (List.mem_cons_of_mem _ hc'))

theorem lmLoop_inv (w : Mem) (prevT : ℕ → ℕ) (wmask ss strstart lookahead limit : ℕ)
    (hprev : ∀ x, prevT x % 65536 < strstart) :
    ∀ (fuel cur : ℕ) (cands : List ℕ) (bl : ℕ) (ms : Option ℕ) (se : ℕ),
      cur < strstart →
      (∀ c ∈ cands, limit < c ∧ c < strstart) →
      lmInv strstart lookahead limit bl ms →
      lmInv strstart lookahead limit
          (lmLoop w prevT wmask ss strstart lookahead limit fuel cur cands bl ms se).1
          (lmLoop w prevT wmask ss strstart lookahead limit fuel cur cands bl ms se).2.1 ∧
        (∀ c ∈ (lmLoop w prevT wmask ss strstart lookahead limit fuel cur cands bl ms se).2.2.2,
          limit < c ∧ c < strstart) := by
  intro fuel
  induction fuel with
  | zero => intro cur cands bl ms se _ hmem hinv; exact ⟨hinv, hmem⟩
  | succ f ih =>
    intro cur cands bl ms se hcur hmem hinv
    simp only [lmLoop]
    by_cases hlim : limit < cur
    · simp only [if_pos hlim]
      have hmem' : ∀ c ∈ cands ++ [cur], limit < c ∧ c < strstart := by
        intro c hc
        rcases List.mem_append.mp hc with h | h
        · exact hmem c h
        · rw [List.mem_singleton] at h
          subst h
          exact ⟨hlim, hcur⟩
      by_cases h4 : (cands ++ [cur]).length = 4
      · simp only [if_pos h4]
        obtain ⟨hinvr, hbler⟩ := lmCands_inv w ss strstart lookahead limit
          (cands ++ [cur]) bl ms se hinv hmem'
        exact ih (prevT (cur &&& wmask) % 65536) []
          (lmCands w ss strstart lookahead (cands ++ [cur]) bl ms se).1
          (lmCands w ss strstart lookahead (cands ++ [cur]) bl ms se).2.1
          (lmCands w ss strstart lookahead (cands ++ [cur]) bl ms se).2.2
          (hprev _) (by intro c hc; cases hc) hinvr
      · simp only [if_neg h4]
        exact ih (prevT (cur &&& wmask) % 65536) (cands ++ [cur]) bl ms se
          (hprev _) hmem' hinv
    · simp only [if_neg hlim]
      exact ⟨hinv, hmem⟩

theorem ssmScalar_le (m : Mem) (a b : ℤ) (maxl : ℕ) :
    ∀ (fuel len : ℕ), len ≤ maxl → ssmScalar m a b maxl fuel len ≤ maxl := by
  intro fuel
  induction fuel with
  | zero => intro len h; exact h
  | succ f ih =>
    intro len h
    rw [ssmScalar]
    by_cases hc : len < maxl ∧ byteAt m (a + (len : ℤ)) = byteAt m (b + (len : ℤ))
    · simp only [if_pos hc]
      exact ih (len + 1) (by omega)
    · simp only [if_neg hc]
      exact h

theorem ssmLoop_le (m : Mem) (a b : ℤ) (maxl : ℕ) :
    ∀ (fuel i : ℕ), 16 ∣ i → i ≤ maxl → ssmLoop m a b maxl fuel i ≤ maxl := by
  intro fuel
  induction fuel with
  | zero => intro i _ h; exact ssmScalar_le m a b maxl (maxl - i) i h
  | succ f ih =>
    intro i hdvd h
    rw [ssmLoop]
    have hdm : maxl / 16 * 16 ≤ maxl := Nat.div_mul_le_self maxl 16
    by_cases hc : i < maxl / 16 * 16
    · simp only [if_pos hc]
      obtain ⟨k, hk⟩ := hdvd
      by_cases hd : firstDiff16 m a b i = 16
      · simp only [if_pos hd]
        exact ih (i + 16) (by omega) (by omega)
      · simp only [if_neg hd]
        have hd16 : firstDiff16 m a b i ≤ 16 := (firstDiffAux_spec m a b i 16 0).2.2.2
        omega
    · simp only [if_neg hc]
      exact ssmScalar_le m a b maxl (maxl - i) i h

/-- Helper: `simd_string_match` never exceeds its `max_len` cap. -/
theorem simd_string_match_le (m : Mem) (a b : ℤ) (maxl : ℕ) :
    simd_string_match m a b maxl ≤ maxl := by
  rw [simd_string_match]
  by_cases h : maxl < 16
  · simp only [if_pos h]
    exact ssmScalar_le m a b maxl maxl 0 (Nat.zero_le _)
  · simp only [if_neg h]
    exact ssmLoop_le m a b maxl (maxl / 16) 0 (Dvd.intro 0 rfl) (Nat.zero_le _)

/-- Invariant of `simd_find_longest_match`'s candidate evaluation: the
best length never exceeds `min max_match_len lookahead`, the recorded
distance is 0 (nothing recorded) or lies in `[1, 32768]`, and a
recorded distance implies a positive best length. -/
def sflmInv (mml la b d : ℕ) : Prop :=
  b ≤ min mml la ∧ (d = 0 ∨ (1 ≤ d ∧ d ≤ 32768)) ∧ (d ≠ 0 → 1 ≤ b)

theorem sflmBatch_inv (w : Mem) (pos la mml : ℕ) :
    ∀ (cands : List ℕ) (b d : ℕ), sflmInv mml la b d →
      sflmInv mml la (sflmBatch w pos la mml cands b d).1 (sflmBatch w pos la mml cands b d).2 := by
  intro cands
  induction cands with
  | nil => intro b d h; exact h
  | cons c rest ih =>
    intro b d hinv
    simp only [sflmBatch]
    by_cases hdist : 0 < u32sub pos c ∧ u32sub pos c ≤ 32768
    · simp only [if_pos hdist]
      by_cases hchr : byteAt w (pos : ℤ) = byteAt w (c : ℤ) ∧
          byteAt w ((pos : ℤ) + 2) = byteAt w ((c : ℤ) + 2)
      · simp only [if_pos hchr]
        by_cases himp : b < simd_string_match w (pos : ℤ) (c : ℤ) (min mml la)
        · simp only [if_pos himp]
          exact ih _ _ ⟨simd_string_match_le w _ _ _, Or.inr ⟨hdist.1, hdist.2⟩,
            fun _ => by omega⟩
        · simp only [if_neg himp]
          exact ih _ _ hinv
      · simp only [if_neg hchr]
        exact ih _ _ hinv
    · simp only [if_neg hdist]
      exact ih _ _ hinv

theorem sflmRem_inv (w : Mem) (pos la mml : ℕ) :
    ∀ (cands : List ℕ) (b d : ℕ), sflmInv mml la b d →
      sflmInv mml la (sflmRem w pos la mml cands b d).1 (sflmRem w pos la mml cands b d).2 := by
  intro cands
  induction cands with
  | nil => intro b d h; exact h
  | cons c rest ih =>
    intro b d hinv
    simp only [sflmRem]
    by_cases hdist : 0 < u32sub pos c ∧ u32sub pos c ≤ 32768
    · simp only [if_pos hdist]
      by_cases himp : b < simd_string_match w (pos : ℤ) (c : ℤ) (min mml la)
      · simp only [if_pos himp]
        exact ih _ _ ⟨simd_string_match_le w _ _ _, Or.inr ⟨hdist.1, hdist.2⟩,
          fun _ => by omega⟩
      · simp only [if_neg himp]
        exact ih _ _ hinv
    · simp only [if_neg hdist]
      exact ih _ _ hinv

theorem sflmLoop_inv (w : Mem) (chainT : ℕ → ℕ) (pos la mml : ℕ) :
    ∀ (fuel cp : ℕ) (cands : List ℕ) (b d : ℕ), sflmInv mml la b d →
      sflmInv mml la (sflmLoop w chainT pos la mml fuel cp cands b d).1
        (sflmLoop w chainT pos la mml fuel cp cands b d).2.1 := by
  intro fuel
  induction fuel with
  | zero => intro cp cands b d h; exact h
  | succ f ih =>
    intro cp cands b d hinv
    simp only [sflmLoop]
    by_cases hc : cp ≠ 0 ∧ u32sub pos cp ≤ 32768
    · simp only [if_pos hc]
      by_cases h4 : (cands ++ [cp]).length = 4
      · simp only [if_pos h4]
        have hb := sflmBatch_inv w pos la mml (cands ++ [cp]) b d hinv
        by_cases hw : cp < 32768
        · simp only [if_pos hw]
          exact ih _ _ _ _ hb
        · simp only [if_neg hw]
          exact hb
      · simp only [if_neg h4]
        by_cases hw : cp < 32768
        · simp only [if_pos hw]
          exact ih _ _ _ _ hinv
        · simp only [if_neg hw]
          exact hinv
    · simp only [if_neg hc]
      exact hinv

theorem lm_combined_bounds (w : Mem) (prevT : ℕ → ℕ)
    (wmask ss strstart lookahead limit fuel cur bl0 se0 : ℕ)
    (hprev : ∀ x, prevT x % 65536 < strstart) (L m : ℕ)
    (hres : lmRem w ss strstart lookahead
        (lmLoop w prevT wmask ss strstart lookahead limit fuel cur [] bl0 none se0).2.2.1
        (lmLoop w prevT wmask ss strstart lookahead limit fuel cur [] bl0 none se0).2.2.2
        (lmLoop w prevT wmask ss strstart lookahead limit fuel cur [] bl0 none se0).1
        (lmLoop w prevT wmask ss strstart lookahead limit fuel cur [] bl0 none se0).2.1 =
      (L, some m))
    (h3 : 3 ≤ bl0) (hcur : cur < strstart) :
    3 ≤ L ∧ L ≤ 256 ∧ L ≤ lookahead ∧ limit < m ∧ m < strstart := by
  obtain ⟨hinv1, hmem1⟩ := lmLoop_inv w prevT wmask ss strstart lookahead limit hprev
    fuel cur [] bl0 none se0 hcur (by intro c hc; cases hc)
    ⟨h3, by intro c hc; cases hc⟩
  obtain ⟨hinv2, _⟩ := lmRem_inv w ss strstart lookahead limit
    (lmLoop w prevT wmask ss strstart lookahead limit fuel cur [] bl0 none se0).2.2.1
    (lmLoop w prevT wmask ss strstart lookahead limit fuel cur [] bl0 none se0).2.2.2
    (lmLoop w prevT wmask ss strstart lookahead limit fuel cur [] bl0 none se0).1
    (lmLoop w prevT wmask ss strstart lookahead limit fuel cur [] bl0 none se0).2.1
    hinv1 hmem1
  rw [hres] at hinv2
  obtain ⟨hL3, hms⟩ := hinv2
  obtain ⟨h256, hla, hlim, hlt⟩ := hms m rfl
  exact ⟨hL3, h256, hla, hlim, hlt⟩

theorem sflm_combined_bounds (w : Mem) (chainT : ℕ → ℕ) (pos la mml cp0 L d : ℕ)
    (hres : ((sflmRem w pos la mml
          (sflmLoop w chainT pos la mml 256 cp0 [] 0 0).2.2
          (sflmLoop w chainT pos la mml 256 cp0 [] 0 0).1
          (sflmLoop w chainT pos la mml 256 cp0 [] 0 0).2.1).1,
        some ((sflmRem w pos la mml
          (sflmLoop w chainT pos la mml 256 cp0 [] 0 0).2.2
          (sflmLoop w chainT pos la mml 256 cp0 [] 0 0).1
          (sflmLoop w chainT pos la mml 256 cp0 [] 0 0).2.1).2)) = (L, some d))
    (hd0 : d ≠ 0) :
    1 ≤ d ∧ d ≤ 32768 ∧ 1 ≤ L ∧ L ≤ min mml la := by
  have hinv0 : sflmInv mml la 0 0 :=
    ⟨Nat.zero_le _, Or.inl rfl, fun h => absurd rfl h⟩
  have hinv1 := sflmLoop_inv w chainT pos la mml 256 cp0 [] 0 0 hinv0
  have hinv2 := sflmRem_inv w pos la mml
    (sflmLoop w chainT pos la mml 256 cp0 [] 0 0).2.2
    (sflmLoop w chainT pos la mml 256 cp0 [] 0 0).1
    (sflmLoop w chainT pos la mml 256 cp0 [] 0 0).2.1
    hinv1
  have hL : (sflmRem w pos la mml
      (sflmLoop w chainT pos la mml 256 cp0 [] 0 0).2.2
      (sflmLoop w chainT pos la mml 256 cp0 [] 0 0).1
      (sflmLoop w chainT pos la mml 256 cp0 [] 0 0).2.1).1 = L := congrArg Prod.fst hres
  have hd : (sflmRem w pos la mml
      (sflmLoop w chainT pos la mml 256 cp0 [] 0 0).2.2
      (sflmLoop w chainT pos la mml 256 cp0 [] 0 0).1
      (sflmLoop w chainT pos la mml 256 cp0 [] 0 0).2.1).2 = d := by
    have := congrArg Prod.snd hres
    simpa using this
  rw [hL, hd] at hinv2
  obtain ⟨hble, hdor, hpos⟩ := hinv2
  rcases hdor with h0 | ⟨h1, h2⟩
  · exact absurd h0 hd0
  · exact ⟨h1, h2, hpos hd0, hble⟩

/-- **C4 (amended).** Reported matches are bounded, under the
chain-table precondition that every stored position is strictly below
the scan position (the data-structure invariant of LZ77 insertion;
without it a distance-0 self-match is reportable — see the
counterexample): whenever `zlib_longest_match_simd` writes
`match_start` it returns `3 ≤ L ≤ 258` (indeed `≤ 256`), `L ≤
lookahead`, and a distance in `[1, 32768]`; and whenever
`simd_find_longest_match` records a nonzero `best_distance` that
distance lies in `[1, 32768]` and the reported length is positive and
never exceeds `min max_match_len lookahead_size`. -/
theorem claimC4_match_bounds (w : Mem)
    (strstart prev_length good_match max_chain_length lookahead : ℕ)
    (prevT : ℕ → ℕ) (wmask : ℕ) (st : SimdDeflateState) (pos mml : ℕ)
    (hprev : ∀ x, prevT x % 65536 < strstart) :
    (∀ L m, zlib_longest_match_simd w strstart prev_length good_match max_chain_length
          lookahead prevT wmask = (L, some m) →
      3 ≤ L ∧ L ≤ 258 ∧ L ≤ lookahead ∧ 1 ≤ strstart - m ∧ strstart - m ≤ 32768) ∧
    (∀ L d, simd_find_longest_match st pos mml = (L, some d) → d ≠ 0 →
      1 ≤ d ∧ d ≤ 32768 ∧ 1 ≤ L ∧ L ≤ min mml st.lookahead_size) := by
  constructor
  · intro L m hres
    rw [zlib_longest_match_simd] at hres
    have key := lm_combined_bounds w prevT wmask _ strstart lookahead _ _ _ _ _ hprev L m hres
      (by split <;> omega) (hprev _)
    obtain ⟨k1, k2, k3, k4, k5⟩ := key
    refine ⟨k1, by omega, k3, ?_, ?_⟩
    · omega
    · by_cases h : 32768 < strstart
      · rw [if_pos h] at k4
        omega
      · rw [if_neg h] at k4
        omega
  · intro L d hres hd0
    rw [simd_find_longest_match] at hres
    by_cases hla : st.lookahead_size < 3
    · rw [if_pos hla] at hres
      have := congrArg Prod.snd hres
      simp at this
    · rw [if_neg hla] at hres
      exact sflm_combined_bounds _ _ _ _ _ _ L d hres hd0

set_option maxRecDepth 100000 in
/-- **C4 (counterexample).** Three concrete violations of the claimed
bounds.  (i) With a chain table whose entry equals the scan position
itself (`prev_table ≡ 5`, `strstart = 5`), `zlib_longest_match_simd`
never compares the candidate against `strstart`: the self-candidate
passes the 8-byte screens trivially (`match == scan`), `compare256` of
a string against itself is 256, and the function reports
`match_start = 5` — a match at distance `strstart - match_start = 0`.
(ii) `simd_find_longest_match` reports a match of length 1 with
nonzero distance 6 when only the first byte agrees (`window[10] = 1`
breaks the run after one byte; the leftover-candidate path has no
first/third character screen and no minimum-length test), violating
`3 ≤ length`.  (iii) With 300 bytes of lookahead, `max_match_len =
300` and an all-equal window, `simd_find_longest_match` reports length
300, violating `length ≤ 258`. -/
theorem claimC4_bounds_violations :
    (zlib_longest_match_simd (fun _ => 0) 5 0 100 4 10 (fun _ => 5) 32767 = (10, some 5) ∧
        (5 : ℕ) - 5 = 0) ∧
      simd_find_longest_match
          ⟨(fun a => if a = 10 then 1 else 0), (fun i => if i = 256 then 3 else 0), 5⟩ 9 258 =
        (1, some 6) ∧
      (simd_find_longest_match
            ⟨(fun _ => 0), (fun i => if i = 0 then 3 else 0), 300⟩ 9 300 =
          (300, some 6) ∧
        ¬ (300 : ℕ) ≤ 258) := by
  refine ⟨⟨by decide, by decide⟩, by decide, by decide, by decide⟩

set_option maxRecDepth 100000 in
/-- Witness for C4 at a concrete input: an all-zero window with chain
entries pointing at position 10 below `strstart = 20` reports the match
`(8, some 10)` — length 8 within `[3, 258]` and within the lookahead 8,
distance 10 within `[1, 32768]`; and `simd_find_longest_match` on an
all-zero window with chain entries 3 at `pos = 9` reports `(5, some 6)`
with distance 6 in range and length `5 = min 258 5`. -/
theorem claimC4_match_bounds_witness :
    (3 ≤ 8 ∧ 8 ≤ 258 ∧ 8 ≤ 8 ∧ 1 ≤ 20 - 10 ∧ 20 - 10 ≤ 32768) ∧
      (1 ≤ 6 ∧ 6 ≤ 32768 ∧ 1 ≤ 5 ∧ 5 ≤ min 258 5) :=
  ⟨(claimC4_match_bounds (fun _ => 0) 20 0 100 4 8 (fun _ => 10) 32767
      ⟨fun _ => 0, fun _ => 3, 5⟩ 9 258 (fun _ => by norm_num)).1 8 10 (by decide),
   (claimC4_match_bounds (fun _ => 0) 20 0 100 4 8 (fun _ => 10) 32767
      ⟨fun _ => 0, fun _ => 3, 5⟩ 9 258 (fun _ => by norm_num)).2 5 6 (by decide) (by decide)⟩
